import Mathlib

/-!
Verification of the segmentation training/evaluation core
(`training/segmentation_trainer.py` and `2_class/fcn_2class.py`).

A batch of label maps is flattened to a `List ℕ` of per-pixel class labels
(all numpy/torch operations involved are elementwise, so flattening is
faithful).  Element-wise loss tensors are flattened to `List ℚ` in the same
pixel order.  The accumulated confusion matrix is a `List (List ℕ)` of rows.
-/

/-- Count of pixel positions where the prediction equals `predicted_label`
and the target equals `target_label`.  Embeds the inner helper
`prediction_error` of `get_per_class_accuracy`
(`segmentation_trainer.py` lines 239-244 and `fcn_2class.py` lines 94-99):
`len(np.where(np.logical_not(np.logical_or(pred - p, target - t)))[0])`. -/
def prediction_error (pred target : List ℕ) (predicted_label target_label : ℕ) : ℕ :=
  ((pred.zip target).filter
    (fun x => x.1 == predicted_label && x.2 == target_label)).length

/-- Embeds `get_per_class_accuracy` (`segmentation_trainer.py` lines 225-248,
identical in `fcn_2class.py` lines 79-103).  The source runs
`for i in range(len(acc_dict)): for j in range(len(acc_dict[i])):
acc_dict[j][i] += prediction_error(i, j)`; since `prediction_error` reads only
`pred`/`target`, the in-place mutation order is irrelevant and the update is
the pointwise map below.  Cell `[j][i]` receives the count of pixels with
predicted label `i` and target label `j` (row = target, column = predicted);
callers only ever pass square `num_classes × num_classes` matrices. -/
def get_per_class_accuracy (pred target : List ℕ) (acc : List (List ℕ)) :
    List (List ℕ) :=
  (List.range acc.length).map (fun j =>
    (List.range ((acc.getD j []).length)).map (fun i =>
      (acc.getD j []).getD i 0 + prediction_error pred target i j))

/-- The `num_classes × num_classes` all-zero confusion accumulator a run
starts from. -/
def zeroMatrix (n : ℕ) : List (List ℕ) :=
  (List.range n).map (fun _ => (List.range n).map (fun _ => 0))

/-- Entry `[j][i]` of a row-major matrix, defaulting to `0` out of range. -/
def matEntry (M : List (List ℕ)) (j i : ℕ) : ℕ := (M.getD j []).getD i 0

/-- Diagonal of the confusion accumulator, as read by `np.diagonal` at the
logging points (lines 92 and 158 of `segmentation_trainer.py`). -/
def npDiagonal (M : List (List ℕ)) : List ℕ :=
  M.mapIdx (fun i row => row.getD i 0)

/-- Losses selected at the pixels whose target label is `i`:
`torch.masked_select(loss, target.eq(i))`. -/
def classSelect (loss : List ℚ) (target : List ℕ) (i : ℕ) : List ℚ :=
  ((target.zip loss).filter (fun x => x.1 == i)).map Prod.snd

/-- Embeds `get_per_class_loss` (`segmentation_trainer.py` lines 215-222,
identical in `fcn_2class.py` lines 68-75): for each class `i`,
`total_num = target.eq(i).sum()`; if positive, the masked mean of the
element-wise loss, otherwise the sum over the empty selection. -/
def get_per_class_loss (loss : List ℚ) (target : List ℕ) (num_classes : ℕ) :
    List ℚ :=
  (List.range num_classes).map (fun i =>
    let total_num := (target.filter (fun t => t == i)).length
    if 0 < total_num then (classSelect loss target i).sum / (total_num : ℚ)
    else (classSelect loss target i).sum)

/-- Count of pixels where prediction and target both equal `i`
(the per-class intersection accumulated into `class_correct[i]`,
`segmentation_trainer.py` lines 66-72 and 142-147). -/
def correctPixels (pred target : List ℕ) (i : ℕ) : ℕ :=
  ((pred.zip target).filter (fun x => x.1 == i && x.2 == i)).length

/-- Count of pixels where prediction or target equals `i`
(the per-class union accumulated into `class_jacard_or[i]`,
`segmentation_trainer.py` lines 73-78 and 148-152). -/
def unionPixels (pred target : List ℕ) (i : ℕ) : ℕ :=
  ((pred.zip target).filter (fun x => x.1 == i || x.2 == i)).length

/-- Errors an evaluation-time computation can stop with.
`zeroDivisionError` is Python's built-in exception, raised by `x / y` on
integers when `y == 0`.  `metricComputationError` is the error class named by
the specification's taxonomy; no such class is defined anywhere in the
repository and the embedded code never produces it. -/
inductive PyError where
  | zeroDivisionError
  | metricComputationError
deriving DecidableEq

/-- Per-class Jaccard terms `list(map(lambda x, y: x/y, class_correct_pixels,
class_jacard_or))` from `print_log` (`segmentation_trainer.py` line 172).
Python evaluates the terms left to right and raises `ZeroDivisionError` at the
first zero denominator; `map` over two lists stops at the shorter one. -/
def jaccardTerms : List ℕ → List ℕ → Except PyError (List ℚ)
  | [], _ => .ok []
  | _ :: _, [] => .ok []
  | x :: xs, y :: ys =>
    if y = 0 then .error .zeroDivisionError
    else
      match jaccardTerms xs ys with
      | .error e => .error e
      | .ok r => .ok (((x : ℚ) / (y : ℚ)) :: r)

/-- The aggregated Jaccard metric `np.mean(...)` of `print_log`
(`segmentation_trainer.py` line 172), `sum / length` over the per-class
terms, propagating the division error. -/
def jaccard_accuracy (class_correct_pixels class_jacard_or : List ℕ) :
    Except PyError ℚ :=
  match jaccardTerms class_correct_pixels class_jacard_or with
  | .error e => .error e
  | .ok ts => .ok (ts.sum / (ts.length : ℚ))

/-- Append-only statistics log attached to the model (`train_stats` /
`test_stats`). -/
structure StatsLog where
  loss : List ℚ
  accuracy : List ℚ
  jaccard_accuracy : List ℚ
deriving DecidableEq

/-- The two statistics logs owned by the model object. -/
structure ModelStats where
  train_stats : StatsLog
  test_stats : StatsLog
deriving DecidableEq

/-- Embeds the statistics-appending portion of `SegmentationTrainer.print_log`
(`segmentation_trainer.py` lines 177-190), taking the already-computed
average loss, accuracy and Jaccard values.  In the `test` branch all three go
to `test_stats`; in the training branch loss and accuracy go to
`train_stats` while the Jaccard value is appended to
`model.test_stats.jaccard_accuracy` (line 188).  The `try/except
AttributeError` around the Jaccard append only guards models saved before the
field existed; here every `StatsLog` has the field, so the append happens. -/
def print_log_stats (test : Bool) (loss accuracy jaccard : ℚ) (m : ModelStats) :
    ModelStats :=
  if test then
    { m with test_stats :=
      { loss := m.test_stats.loss ++ [loss]
        accuracy := m.test_stats.accuracy ++ [accuracy]
        jaccard_accuracy := m.test_stats.jaccard_accuracy ++ [jaccard] } }
  else
    { train_stats :=
      { loss := m.train_stats.loss ++ [loss]
        accuracy := m.train_stats.accuracy ++ [accuracy]
        jaccard_accuracy := m.train_stats.jaccard_accuracy }
      test_stats :=
      { m.test_stats with jaccard_accuracy :=
          m.test_stats.jaccard_accuracy ++ [jaccard] } }

/-- One batch of the evaluation loader, seen after the external model and loss
criterion ran on it: the per-pixel predicted labels, the per-pixel targets,
and the scalar batch loss `loss_func(output, target).item()`. -/
structure EvalBatch where
  pred : List ℕ
  target : List ℕ
  loss : ℚ

/-- Observable side effects the evaluation loops emit.  `snapshot` is the
`per_class_accuracy.append(np.diagonal(confusion))`, `report` a `print_log`
call (`has_jaccard` records whether that report includes a Jaccard value),
`save` a `model.save()` checkpoint, and `finalReport` the post-loop aggregate
`print_log` over the whole dataset. -/
inductive TestEvent where
  | snapshot (batches_done : ℕ)
  | report (batches_done : ℕ) (has_jaccard : Bool)
  | save (batches_done : ℕ)
  | finalReport (has_jaccard : Bool)
deriving DecidableEq

/-- Recognizes the post-loop aggregate report. -/
def TestEvent.isFinal : TestEvent → Bool
  | .finalReport _ => true
  | _ => false

/-- Mutable state of `SegmentationTrainer.test`
(`segmentation_trainer.py` lines 101-164), together with the trace of
emitted side effects.  `aborted` models an uncaught Python exception: once
it is `some e` the run is over and nothing further executes. -/
structure SegTestState where
  test_loss : ℚ
  class_correct : List ℕ
  class_jacard_or : List ℕ
  confusion : List (List ℕ)
  batches_done : ℕ
  trace : List TestEvent
  aborted : Option PyError

/-- One iteration of the `SegmentationTrainer.test` batch loop
(`segmentation_trainer.py` lines 118-164): accumulate the batch loss, the
per-class intersection and union counts, the confusion matrix, and bump
`batches_done`.  When `batches_done % self.log_spacing == 0` the log block
at lines 157-161 runs: first the per-class-accuracy snapshot is appended
(line 158), then `print_log` computes the Jaccard metric (line 172) — which
raises an uncaught `ZeroDivisionError` if any accumulated union count is
zero, aborting the run before the report is printed and before
`model.save()` at line 161 — and only if it succeeds are the report and the
checkpoint emitted.  A step on an already-aborted state does nothing. -/
def segTestStep (log_spacing : ℕ) (st : SegTestState) (b : EvalBatch) :
    SegTestState :=
  if st.aborted.isSome then st
  else if (st.batches_done + 1) % log_spacing == 0 then
    match jaccard_accuracy
        (st.class_correct.mapIdx (fun i v => v + correctPixels b.pred b.target i))
        (st.class_jacard_or.mapIdx (fun i v => v + unionPixels b.pred b.target i)) with
    | .error e =>
      { test_loss := st.test_loss + b.loss
        class_correct := st.class_correct.mapIdx
          (fun i v => v + correctPixels b.pred b.target i)
        class_jacard_or := st.class_jacard_or.mapIdx
          (fun i v => v + unionPixels b.pred b.target i)
        confusion := get_per_class_accuracy b.pred b.target st.confusion
        batches_done := st.batches_done + 1
        trace := st.trace ++ [.snapshot (st.batches_done + 1)]
        aborted := some e }
    | .ok _ =>
      { test_loss := st.test_loss + b.loss
        class_correct := st.class_correct.mapIdx
          (fun i v => v + correctPixels b.pred b.target i)
        class_jacard_or := st.class_jacard_or.mapIdx
          (fun i v => v + unionPixels b.pred b.target i)
        confusion := get_per_class_accuracy b.pred b.target st.confusion
        batches_done := st.batches_done + 1
        trace := st.trace ++ [.snapshot (st.batches_done + 1),
          .report (st.batches_done + 1) true, .save (st.batches_done + 1)]
        aborted := none }
  else
    { test_loss := st.test_loss + b.loss
      class_correct := st.class_correct.mapIdx
        (fun i v => v + correctPixels b.pred b.target i)
      class_jacard_or := st.class_jacard_or.mapIdx
        (fun i v => v + unionPixels b.pred b.target i)
      confusion := get_per_class_accuracy b.pred b.target st.confusion
      batches_done := st.batches_done + 1
      trace := st.trace
      aborted := none }

/-- State of `SegmentationTrainer.test` on entry: fresh loss, count and
`batches_done` accumulators (lines 103-107), the model's confusion
accumulator (zero at the start of a run), and no pending exception. -/
def initSegTestState (num_classes : ℕ) : SegTestState :=
  { test_loss := 0
    class_correct := List.replicate num_classes 0
    class_jacard_or := List.replicate num_classes 0
    confusion := zeroMatrix num_classes
    batches_done := 0
    trace := []
    aborted := none }

/-- Embeds the loop of `SegmentationTrainer.test`
(`segmentation_trainer.py` lines 101-164).  The method signature takes an
`iters_per_log` argument (default 100) but the body never reads it: logging
and checkpointing test `batches_done % self.log_spacing` (line 157), with
`log_spacing` supplied to the trainer's constructor.  There is no code after
the batch loop, so no post-loop aggregate report is emitted; a
`ZeroDivisionError` inside `print_log` at a log point aborts the run
(`aborted = some e`) with the remaining batches unprocessed. -/
def segmentation_test (num_classes log_spacing iters_per_log : ℕ)
    (batches : List EvalBatch) : SegTestState :=
  batches.foldl (segTestStep log_spacing) (initSegTestState num_classes)

/-- The confusion accumulator after `get_per_class_accuracy` has been applied
to each batch of a sequence in turn, starting from the zero matrix.  The
loops call the accumulator exactly once per processed batch
(`segmentation_trainer.py` lines 89 and 154); a completed evaluation run's
matrix is this fold over all its batches
(theorem `segTest_confusion_of_completed`), while an aborted run's matrix is
this fold over the prefix it processed. -/
def confusionFold (num_classes : ℕ) (batches : List EvalBatch) :
    List (List ℕ) :=
  batches.foldl (fun acc b => get_per_class_accuracy b.pred b.target acc)
    (zeroMatrix num_classes)

/-- Variant of `get_per_class_accuracy` acting on the float-valued
`acc_dict = [[0.0, 0.0], [0.0, 0.0]]` of `fcn_2class.py` (lines 79-103; the
code is duplicated verbatim there, only the accumulator entries are
floats). -/
def get_per_class_accuracyQ (pred target : List ℕ) (acc : List (List ℚ)) :
    List (List ℚ) :=
  (List.range acc.length).map (fun j =>
    (List.range ((acc.getD j []).length)).map (fun i =>
      (acc.getD j []).getD i 0 + (prediction_error pred target i j : ℚ)))

/-- Mutable state of the older 2-class `test` function
(`fcn_2class.py` lines 106-144). -/
structure Fcn2TestState where
  test_loss : ℚ
  correct : ℕ
  acc_dict : List (List ℚ)
  batches_done : ℕ
  trace : List TestEvent

/-- One iteration of the `fcn_2class.py` `test` batch loop (lines 120-142):
accumulate loss, correct-pixel count and the confusion accumulator, bump
`batches_done`, and report (without any Jaccard value) every `iters_per_log`
batches — this older variant does use its `iters_per_log` argument. -/
def fcn2TestStep (iters_per_log : ℕ) (st : Fcn2TestState) (b : EvalBatch) :
    Fcn2TestState :=
  let correct :=
    st.correct + ((b.pred.zip b.target).filter (fun x => x.1 == x.2)).length
  let acc_dict := get_per_class_accuracyQ b.pred b.target st.acc_dict
  let batches_done := st.batches_done + 1
  let trace :=
    if batches_done % iters_per_log == 0 then
      st.trace ++ [.report batches_done false]
    else st.trace
  { test_loss := st.test_loss + b.loss, correct, acc_dict, batches_done,
    trace }

/-- Entry state of the 2-class `test` (lines 108-117). -/
def initFcn2TestState : Fcn2TestState :=
  { test_loss := 0, correct := 0, acc_dict := [[0, 0], [0, 0]],
    batches_done := 0, trace := [] }

/-- Embeds the 2-class `test` (`fcn_2class.py` lines 106-144): the batch
loop followed by the unconditional post-loop
`print_log(correct, test_loss, len(test_loader.dataset), 1, ...)` — a final
aggregate report over the whole dataset, which carries loss and accuracy but
no Jaccard value (`fcn_2class.py`'s `print_log` computes none). -/
def fcn2_test (iters_per_log : ℕ) (batches : List EvalBatch) : Fcn2TestState :=
  let st := batches.foldl (fcn2TestStep iters_per_log) initFcn2TestState
  { st with trace := st.trace ++ [.finalReport false] }

/-- One batch of the training loader, seen after the external model and the
element-wise `CrossEntropyLoss(reduction="none")` ran on it. -/
structure TrainBatch where
  pred : List ℕ
  target : List ℕ
  loss : List ℚ

/-- Observable side effects of one training epoch: a forward pass, an
optimizer step (the only weight mutation), a log report, a checkpoint —
each tagged with the batch index that caused it. -/
inductive TrainEvent where
  | forward (batch_idx : ℕ)
  | optStep (batch_idx : ℕ)
  | logReport (batch_idx : ℕ)
  | save (batch_idx : ℕ)
deriving DecidableEq

/-- Mutable state of `SegmentationTrainer.train`
(`segmentation_trainer.py` lines 30-99) together with the model-owned
statistics it mutates and the trace of emitted side effects. -/
structure TrainState where
  class_correct : List ℕ
  class_jacard_or : List ℕ
  sum_loss : ℚ
  confusion : List (List ℕ)
  per_class_loss : List (List ℚ)
  per_class_accuracy : List (List ℕ)
  trace : List TrainEvent

/-- Processing of one non-skipped batch of `SegmentationTrainer.train`
(`segmentation_trainer.py` lines 55-99): forward pass and element-wise loss
(external, recorded as events), per-class intersection/union accumulation,
per-class loss vector and its sum, backward/optimizer step (event), confusion
update, then a log report every `log_spacing` batches (also appending the
confusion diagonal to `per_class_accuracy`) and a checkpoint every
`save_spacing` batches. -/
def trainStep (num_classes log_spacing save_spacing : ℕ) (st : TrainState)
    (ib : ℕ × TrainBatch) : TrainState :=
  let idx := ib.1
  let b := ib.2
  let loss_vec := get_per_class_loss b.loss b.target num_classes
  let class_correct :=
    st.class_correct.mapIdx (fun i v => v + correctPixels b.pred b.target i)
  let class_jacard_or :=
    st.class_jacard_or.mapIdx (fun i v => v + unionPixels b.pred b.target i)
  let confusion := get_per_class_accuracy b.pred b.target st.confusion
  let trace0 := st.trace ++ [.forward idx, .optStep idx]
  let logged :=
    if idx % log_spacing == 0 then
      (st.per_class_accuracy ++ [npDiagonal confusion],
       trace0 ++ [.logReport idx])
    else (st.per_class_accuracy, trace0)
  let trace1 := if idx % save_spacing == 0 then logged.2 ++ [.save idx]
    else logged.2
  { class_correct, class_jacard_or
    sum_loss := st.sum_loss + loss_vec.sum
    confusion
    per_class_loss := st.per_class_loss ++ [loss_vec]
    per_class_accuracy := logged.1
    trace := trace1 }

/-- The enumerated batch loop of `SegmentationTrainer.train` with the resume
guard `if batch_idx < start_index: continue` (line 54): a skipped batch
leaves the state entirely untouched. -/
def trainLoop (num_classes log_spacing save_spacing start_index : ℕ)
    (st : TrainState) (l : List (ℕ × TrainBatch)) : TrainState :=
  l.foldl (fun st ib =>
    if ib.1 < start_index then st
    else trainStep num_classes log_spacing save_spacing st ib) st

/-- Embeds `SegmentationTrainer.train` (`segmentation_trainer.py` lines
30-99).  `st` is the state on entry: the source zeroes `class_correct`,
`class_jacard_or` and `sum_loss` at the start of each call while the
confusion matrix and the per-class statistics logs persist on the model, so
the whole state is taken as a parameter and the theorems hold for any entry
state. -/
def train (num_classes log_spacing save_spacing : ℕ) (st : TrainState)
    (batches : List TrainBatch) (start_index : ℕ) : TrainState :=
  trainLoop num_classes log_spacing save_spacing start_index st batches.enum

/-!
The prior-correction stage of `SegmentationTrainer.test`
(`segmentation_trainer.py` lines 109-129) works on real-valued score
tensors.  A batch of scores is a function `batch index → class → pixel → ℝ`
(indices beyond the actual sizes are irrelevant: every operation below only
reads classes below `num_classes`, pixels below `num_pixels` and batch
indices below `batch_len`).
-/

/-- The logistic squashing `torch.sigmoid` (line 126). -/
noncomputable def sigmoid (x : ℝ) : ℝ := 1 / (1 + Real.exp (-x))

/-- The penalty tensor computed from the statistics provider's distribution
(`segmentation_trainer.py` lines 111-116): each class is divided by its own
spatial mean, the result is normalized across classes per pixel, and
subtracted from one. -/
noncomputable def buildPrior (num_classes num_pixels : ℕ)
    (dist : ℕ → ℕ → ℝ) : ℕ → ℕ → ℝ :=
  fun c p =>
    1 - (dist c p / ((∑ q ∈ Finset.range num_pixels, dist c q) / (num_pixels : ℝ)))
      / (∑ c2 ∈ Finset.range num_classes,
          dist c2 p / ((∑ q ∈ Finset.range num_pixels, dist c2 q) / (num_pixels : ℝ)))

/-- The per-image body of the prior-correction loop before the logarithm
(`segmentation_trainer.py` lines 125-128): subtract the penalty, squash
through the sigmoid, and renormalize each pixel across the class axis. -/
noncomputable def priorStep (num_classes : ℕ) (prior img : ℕ → ℕ → ℝ) :
    ℕ → ℕ → ℝ :=
  fun c p =>
    sigmoid (img c p - prior c p)
      / (∑ c2 ∈ Finset.range num_classes, sigmoid (img c2 p - prior c2 p))

/-- One iteration `i` of the prior-correction loop
(`segmentation_trainer.py` lines 124-129): image `i` of the batch is
replaced by its corrected scores, and then — exactly as the source does,
since `output = np.log(output)` sits inside the `for i` loop — the logarithm
is applied to the ENTIRE batch, earlier images included. -/
noncomputable def priorIter (num_classes : ℕ) (prior : ℕ → ℕ → ℝ)
    (out : ℕ → ℕ → ℕ → ℝ) (i : ℕ) : ℕ → ℕ → ℕ → ℝ :=
  fun j c p =>
    Real.log (Function.update out i (priorStep num_classes prior (out i)) j c p)

/-- The whole prior-correction stage (`segmentation_trainer.py` lines
122-129): `output = np.e**output` once, then the per-image loop over the
batch. -/
noncomputable def priorCorrect (batch_len num_classes : ℕ)
    (prior : ℕ → ℕ → ℝ) (output : ℕ → ℕ → ℕ → ℝ) : ℕ → ℕ → ℕ → ℝ :=
  (List.range batch_len).foldl (priorIter num_classes prior)
    (fun j c p => Real.exp (output j c p))

/-- Index of the largest value among `v 0, …, v n`, earliest index winning
ties — the behaviour of `torch.argmax`, which returns the first maximal
index. -/
noncomputable def argmaxUpTo (v : ℕ → ℝ) : ℕ → ℕ
  | 0 => 0
  | n + 1 => if v (argmaxUpTo v n) < v (n + 1) then n + 1 else argmaxUpTo v n

/-- The predicted label of one pixel,
`torch.argmax(output, dim=1)` over the class axis (line 138). -/
noncomputable def predLabel (num_classes : ℕ) (v : ℕ → ℝ) : ℕ :=
  argmaxUpTo v (num_classes - 1)

/-- Log points of the evaluation loop: the values `batches_done` takes in a
window of `m` batches starting after `d` batches already done, restricted to
those where `batches_done % log_spacing == 0` holds. -/
def segLogPointsFrom (log_spacing d : ℕ) : ℕ → List ℕ
  | 0 => []
  | m + 1 =>
    (if (d + 1) % log_spacing == 0 then [d + 1] else [])
      ++ segLogPointsFrom log_spacing (d + 1) m

/-- The three side effects one successful evaluation log point emits: the
per-class-accuracy snapshot, the `print_log` report with Jaccard, and the
checkpoint. -/
def segLogBlock (k : ℕ) : List TestEvent :=
  [.snapshot k, .report k true, .save k]

/-- An event the evaluation loop can only emit from inside its log block:
its `batches_done` tag is a positive multiple of `log_spacing`, and it is
never a final aggregate report. -/
def eventAtLogPoint (log_spacing : ℕ) : TestEvent → Prop
  | .snapshot k => 0 < k ∧ k % log_spacing = 0
  | .report k _ => 0 < k ∧ k % log_spacing = 0
  | .save k => 0 < k ∧ k % log_spacing = 0
  | .finalReport _ => False

/-!
Helper lemmas.
-/

theorem trainLoop_enumFrom_of_le (num_classes log_spacing save_spacing s : ℕ) :
    ∀ (bs : List TrainBatch) (k : ℕ) (st : TrainState), s ≤ k →
      trainLoop num_classes log_spacing save_spacing s st (List.enumFrom k bs)
        = (List.enumFrom k bs).foldl
            (trainStep num_classes log_spacing save_spacing) st := by
  intro bs
  induction bs with
  | nil => intro k st _; rfl
  | cons b t ih =>
    intro k st hk
    have hnot : ¬ k < s := Nat.not_lt.mpr hk
    simp only [List.enumFrom_cons, trainLoop, List.foldl_cons, if_neg hnot]
    exact ih (k + 1) _ (Nat.le_succ_of_le hk)

theorem trainLoop_enumFrom (num_classes log_spacing save_spacing s : ℕ) :
    ∀ (bs : List TrainBatch) (k : ℕ) (st : TrainState),
      trainLoop num_classes log_spacing save_spacing s st (List.enumFrom k bs)
        = ((List.enumFrom k bs).drop (s - k)).foldl
            (trainStep num_classes log_spacing save_spacing) st := by
  intro bs
  induction bs with
  | nil => intro k st; simp [trainLoop]
  | cons b t ih =>
    intro k st
    by_cases hk : k < s
    · have hsk : s - k = (s - (k + 1)) + 1 := by omega
      simp only [List.enumFrom_cons, trainLoop, List.foldl_cons, if_pos hk, hsk,
        List.drop_succ_cons]
      exact ih (k + 1) st
    · have hk2 : s ≤ k := Nat.not_lt.mp hk
      have hsk : s - k = 0 := by omega
      rw [hsk, List.drop_zero]
      exact trainLoop_enumFrom_of_le num_classes log_spacing save_spacing s
        (b :: t) k st hk2

theorem segTestStep_of_aborted (log_spacing : ℕ) (st : SegTestState)
    (b : EvalBatch) (h : st.aborted.isSome) :
    segTestStep log_spacing st b = st := by
  unfold segTestStep
  rw [if_pos h]

theorem segTest_foldl_of_aborted (log_spacing : ℕ) :
    ∀ (bs : List EvalBatch) (st : SegTestState), st.aborted.isSome →
      bs.foldl (segTestStep log_spacing) st = st := by
  intro bs
  induction bs with
  | nil => intro st _; rfl
  | cons b t ih =>
    intro st h
    simp only [List.foldl_cons, segTestStep_of_aborted log_spacing st b h]
    exact ih st h

theorem segTestStep_none (log_spacing : ℕ) (st : SegTestState) (b : EvalBatch)
    (h : st.aborted = none)
    (h2 : (segTestStep log_spacing st b).aborted = none) :
    segTestStep log_spacing st b =
      { test_loss := st.test_loss + b.loss
        class_correct := st.class_correct.mapIdx
          (fun i v => v + correctPixels b.pred b.target i)
        class_jacard_or := st.class_jacard_or.mapIdx
          (fun i v => v + unionPixels b.pred b.target i)
        confusion := get_per_class_accuracy b.pred b.target st.confusion
        batches_done := st.batches_done + 1
        trace := st.trace ++ (if (st.batches_done + 1) % log_spacing == 0
            then segLogBlock (st.batches_done + 1) else [])
        aborted := none } := by
  unfold segTestStep at h2 ⊢
  rw [if_neg (by simp [h])] at h2 ⊢
  by_cases hlog : ((st.batches_done + 1) % log_spacing == 0)
  · rw [if_pos hlog] at h2 ⊢
    rcases hjac : jaccard_accuracy
        (st.class_correct.mapIdx (fun i v => v + correctPixels b.pred b.target i))
        (st.class_jacard_or.mapIdx (fun i v => v + unionPixels b.pred b.target i))
      with e | v
    · rw [hjac] at h2
      simp at h2
    · simp [segLogBlock, hlog]
  · rw [if_neg hlog] at h2 ⊢
    simp [hlog]

theorem segTestStep_trace_append (log_spacing : ℕ) (st : SegTestState)
    (b : EvalBatch) (h : st.aborted = none) :
    ∃ X, (segTestStep log_spacing st b).trace = st.trace ++ X
      ∧ ∀ e ∈ X, eventAtLogPoint log_spacing e := by
  unfold segTestStep
  rw [if_neg (by simp [h])]
  by_cases hlog : ((st.batches_done + 1) % log_spacing == 0)
  · have hmod : (st.batches_done + 1) % log_spacing = 0 := by
      simpa using hlog
    rw [if_pos hlog]
    rcases jaccard_accuracy
        (st.class_correct.mapIdx (fun i v => v + correctPixels b.pred b.target i))
        (st.class_jacard_or.mapIdx (fun i v => v + unionPixels b.pred b.target i))
      with e | v
    · refine ⟨[.snapshot (st.batches_done + 1)], rfl, ?_⟩
      intro e2 he2
      rw [List.mem_singleton] at he2
      subst he2
      exact ⟨by omega, hmod⟩
    · refine ⟨[.snapshot (st.batches_done + 1),
        .report (st.batches_done + 1) true, .save (st.batches_done + 1)],
        rfl, ?_⟩
      intro e2 he2
      simp only [List.mem_cons, List.mem_singleton, List.not_mem_nil,
        or_false] at he2
      rcases he2 with rfl | rfl | rfl <;> exact ⟨by omega, hmod⟩
  · rw [if_neg hlog]
    exact ⟨[], by simp, by simp⟩

theorem segTest_foldl_spec (log_spacing : ℕ) :
    ∀ (bs : List EvalBatch) (st : SegTestState), st.aborted = none →
      (bs.foldl (segTestStep log_spacing) st).aborted = none →
      (bs.foldl (segTestStep log_spacing) st).batches_done
          = st.batches_done + bs.length
        ∧ (bs.foldl (segTestStep log_spacing) st).trace
          = st.trace ++
            ((segLogPointsFrom log_spacing st.batches_done bs.length).map
              segLogBlock).flatten
        ∧ (bs.foldl (segTestStep log_spacing) st).confusion
          = bs.foldl (fun acc b =>
              get_per_class_accuracy b.pred b.target acc) st.confusion := by
  intro bs
  induction bs with
  | nil => intro st _ _; simp [segLogPointsFrom]
  | cons b t ih =>
    intro st h hf
    simp only [List.foldl_cons] at hf ⊢
    cases habort : (segTestStep log_spacing st b).aborted with
    | some e =>
      rw [segTest_foldl_of_aborted log_spacing t _ (by simp [habort]),
        habort] at hf
      exact absurd hf (by simp)
    | none =>
      have hstep := segTestStep_none log_spacing st b h habort
      rw [hstep] at hf ⊢
      obtain ⟨ihd, iht, ihc⟩ := ih _ rfl hf
      refine ⟨?_, ?_, ?_⟩
      · rw [ihd]
        simp only [List.length_cons]
        omega
      · rw [iht]
        simp only [List.length_cons, segLogPointsFrom, List.map_append,
          List.flatten_append]
        split <;> simp [segLogBlock]
      · rw [ihc]

theorem segTest_trace_no_final (log_spacing : ℕ) :
    ∀ (bs : List EvalBatch) (st : SegTestState),
      ((bs.foldl (segTestStep log_spacing) st).trace.filter TestEvent.isFinal)
        = st.trace.filter TestEvent.isFinal := by
  intro bs
  induction bs with
  | nil => intro st; rfl
  | cons b t ih =>
    intro st
    simp only [List.foldl_cons]
    rw [ih]
    cases h : st.aborted with
    | some e => rw [segTestStep_of_aborted log_spacing st b (by simp [h])]
    | none =>
      obtain ⟨X, hX, hXev⟩ := segTestStep_trace_append log_spacing st b h
      rw [hX, List.filter_append]
      have hXf : X.filter TestEvent.isFinal = [] := by
        apply List.filter_eq_nil_iff.mpr
        intro e he
        cases e with
        | finalReport hj => exact absurd (hXev _ he) (by simp [eventAtLogPoint])
        | snapshot k => simp [TestEvent.isFinal]
        | report k hj => simp [TestEvent.isFinal]
        | save k => simp [TestEvent.isFinal]
      rw [hXf, List.append_nil]

theorem segTest_trace_events (log_spacing : ℕ) :
    ∀ (bs : List EvalBatch) (st : SegTestState),
      (∀ e ∈ st.trace, eventAtLogPoint log_spacing e) →
      ∀ e ∈ (bs.foldl (segTestStep log_spacing) st).trace,
        eventAtLogPoint log_spacing e := by
  intro bs
  induction bs with
  | nil => intro st h; exact h
  | cons b t ih =>
    intro st h
    simp only [List.foldl_cons]
    cases habort : st.aborted with
    | some e =>
      rw [segTestStep_of_aborted log_spacing st b (by simp [habort])]
      exact ih st h
    | none =>
      apply ih
      obtain ⟨X, hX, hXev⟩ := segTestStep_trace_append log_spacing st b habort
      rw [hX]
      intro e he
      rcases List.mem_append.mp he with h1 | h2
      · exact h e h1
      · exact hXev e h2

theorem segLogPointsFrom_mem (log_spacing : ℕ) :
    ∀ (m d k : ℕ), k ∈ segLogPointsFrom log_spacing d m
      ↔ d < k ∧ k ≤ d + m ∧ k % log_spacing = 0 := by
  intro m
  induction m with
  | zero => intro d k; simp [segLogPointsFrom]; omega
  | succ m ih =>
    intro d k
    simp only [segLogPointsFrom, List.mem_append, ih (d + 1) k]
    by_cases h : (d + 1) % log_spacing = 0
    · simp only [h, beq_self_eq_true, if_true, List.mem_singleton]
      constructor
      · rintro (rfl | ⟨h1, h2, h3⟩)
        · exact ⟨by omega, by omega, h⟩
        · exact ⟨by omega, by omega, h3⟩
      · rintro ⟨h1, h2, h3⟩
        by_cases hk : k = d + 1
        · exact Or.inl hk
        · exact Or.inr ⟨by omega, by omega, h3⟩
    · rw [if_neg (by simpa using h)]
      simp only [List.not_mem_nil, false_or]
      constructor
      · rintro ⟨h1, h2, h3⟩
        exact ⟨by omega, by omega, h3⟩
      · rintro ⟨h1, h2, h3⟩
        have hk : k ≠ d + 1 := by rintro rfl; exact h h3
        exact ⟨by omega, by omega, h3⟩

theorem fcn2_trace_last (iters_per_log : ℕ) (bs : List EvalBatch) :
    (fcn2_test iters_per_log bs).trace.getLast?
      = some (.finalReport false) := by
  simp [fcn2_test]

theorem getD_map_range {α : Type} (n : ℕ) (g : ℕ → α) (j : ℕ) (d : α)
    (hj : j < n) : ((List.range n).map g).getD j d = g j := by
  rw [List.getD_eq_getElem ((List.range n).map g) d (by simpa using hj)]
  simp

theorem filter_key_length_sum {α : Type} (key : α → ℕ) (C : ℕ) :
    ∀ (l : List α), (∀ x ∈ l, key x < C) →
      (∑ j ∈ Finset.range C, (l.filter (fun x => key x == j)).length)
        = l.length := by
  intro l
  induction l with
  | nil => intro _; simp
  | cons a t ih =>
    intro h
    have ha : key a ∈ Finset.range C :=
      Finset.mem_range.mpr (h a (List.mem_cons_self a t))
    have hsplit : ∀ j, ((a :: t).filter (fun x => key x == j)).length
        = (if key a = j then 1 else 0)
          + (t.filter (fun x => key x == j)).length := by
      intro j
      by_cases hj : key a = j
      · simp [List.filter_cons, hj]; omega
      · simp [List.filter_cons, hj]
    simp only [hsplit]
    rw [Finset.sum_add_distrib,
      ih (fun x hx => h x (List.mem_cons_of_mem a hx)),
      Finset.sum_ite_eq (Finset.range C) (key a) (fun _ => 1), if_pos ha]
    simp [Nat.add_comm]

theorem zip_filter_fst_length {α β : Type} (p : α → Bool) :
    ∀ (a : List α) (b : List β), a.length = b.length →
      ((a.zip b).filter (fun x => p x.1)).length = (a.filter p).length := by
  intro a
  induction a with
  | nil => intro b _; simp
  | cons x xs ih =>
    intro b h
    cases b with
    | nil => simp at h
    | cons y ys =>
      have h2 : xs.length = ys.length := by simpa using h
      by_cases hp : p x
      · simp [List.zip_cons_cons, List.filter_cons, hp, ih ys h2]
      · simp [List.zip_cons_cons, List.filter_cons, hp, ih ys h2]

theorem zip_filter_snd_length {α β : Type} (p : β → Bool) :
    ∀ (a : List α) (b : List β), a.length = b.length →
      ((a.zip b).filter (fun x => p x.2)).length = (b.filter p).length := by
  intro a
  induction a with
  | nil =>
    intro b h
    have hb : b = [] := List.length_eq_zero.mp h.symm
    simp [hb]
  | cons x xs ih =>
    intro b h
    cases b with
    | nil => simp at h
    | cons y ys =>
      have h2 : xs.length = ys.length := by simpa using h
      by_cases hp : p y
      · simp [List.zip_cons_cons, List.filter_cons, hp, ih ys h2]
      · simp [List.zip_cons_cons, List.filter_cons, hp, ih ys h2]

theorem matEntry_zero (C j i : ℕ) (hj : j < C) (hi : i < C) :
    matEntry (zeroMatrix C) j i = 0 := by
  unfold matEntry zeroMatrix
  rw [getD_map_range C _ j [] hj]
  rw [getD_map_range C (fun _ => (0 : ℕ)) i 0 hi]

theorem matEntry_gpca (pred target : List ℕ) (acc : List (List ℕ)) (j i : ℕ)
    (hj : j < acc.length) (hi : i < (acc.getD j []).length) :
    matEntry (get_per_class_accuracy pred target acc) j i
      = matEntry acc j i + prediction_error pred target i j := by
  unfold matEntry get_per_class_accuracy
  rw [getD_map_range acc.length _ j [] hj]
  rw [getD_map_range _ _ i 0 hi]

theorem gpca_shape (pred target : List ℕ) (acc : List (List ℕ)) :
    (get_per_class_accuracy pred target acc).length = acc.length
      ∧ ∀ j, j < acc.length →
        ((get_per_class_accuracy pred target acc).getD j []).length
          = (acc.getD j []).length := by
  constructor
  · simp [get_per_class_accuracy]
  · intro j hj
    unfold get_per_class_accuracy
    rw [getD_map_range acc.length _ j [] hj]
    simp

theorem pe_row_sum (pred target : List ℕ) (C j : ℕ)
    (hlen : pred.length = target.length) (hp : ∀ x ∈ pred, x < C) :
    (∑ i ∈ Finset.range C, prediction_error pred target i j)
      = (target.filter (fun x => x == j)).length := by
  have h2 : ∀ i : ℕ, prediction_error pred target i j
      = (((pred.zip target).filter (fun x => x.2 == j)).filter
          (fun x => x.1 == i)).length := by
    intro i
    unfold prediction_error
    rw [List.filter_filter]
  simp only [h2]
  rw [filter_key_length_sum (fun x : ℕ × ℕ => x.1) C _
    (fun x hx => hp x.1 (List.of_mem_zip (List.mem_of_mem_filter hx)).1)]
  exact zip_filter_snd_length (fun t => t == j) pred target hlen

theorem pe_col_sum (pred target : List ℕ) (C i : ℕ)
    (hlen : pred.length = target.length) (ht : ∀ x ∈ target, x < C) :
    (∑ j ∈ Finset.range C, prediction_error pred target i j)
      = (pred.filter (fun x => x == i)).length := by
  have h2 : ∀ j : ℕ, prediction_error pred target i j
      = (((pred.zip target).filter (fun x => x.1 == i)).filter
          (fun x => x.2 == j)).length := by
    intro j
    unfold prediction_error
    rw [List.filter_filter]
    congr 2
    funext a
    exact Bool.and_comm _ _
  simp only [h2]
  rw [filter_key_length_sum (fun x : ℕ × ℕ => x.2) C _
    (fun x hx => ht x.2 (List.of_mem_zip (List.mem_of_mem_filter hx)).2)]
  exact zip_filter_fst_length (fun t => t == i) pred target hlen

theorem confusion_fold_entry (C : ℕ) :
    ∀ (bs : List EvalBatch) (M : List (List ℕ)),
      M.length = C → (∀ j, j < C → (M.getD j []).length = C) →
      ∀ j i, j < C → i < C →
        matEntry (bs.foldl (fun acc b =>
          get_per_class_accuracy b.pred b.target acc) M) j i
          = matEntry M j i
            + (bs.map (fun b => prediction_error b.pred b.target i j)).sum := by
  intro bs
  induction bs with
  | nil => intro M _ _ j i _ _; simp
  | cons b t ih =>
    intro M hMl hMr j i hj hi
    have hl2 : (get_per_class_accuracy b.pred b.target M).length = C := by
      rw [(gpca_shape b.pred b.target M).1, hMl]
    have hr2 : ∀ j2, j2 < C →
        ((get_per_class_accuracy b.pred b.target M).getD j2 []).length
          = C := by
      intro j2 hj2
      rw [(gpca_shape b.pred b.target M).2 j2 (by rw [hMl]; exact hj2)]
      exact hMr j2 hj2
    simp only [List.foldl_cons, List.map_cons, List.sum_cons]
    rw [ih (get_per_class_accuracy b.pred b.target M) hl2 hr2 j i hj hi]
    rw [matEntry_gpca b.pred b.target M j i (by rw [hMl]; exact hj)
      (by rw [hMr j hj]; exact hi)]
    omega

/-- A completed evaluation run (one that did not abort on the Jaccard
division) has accumulated its confusion matrix over all of its batches. -/
theorem segTest_confusion_of_completed
    (num_classes log_spacing iters_per_log : ℕ) (batches : List EvalBatch)
    (h : (segmentation_test num_classes log_spacing iters_per_log
      batches).aborted = none) :
    (segmentation_test num_classes log_spacing iters_per_log
        batches).confusion = confusionFold num_classes batches := by
  unfold segmentation_test at h ⊢
  exact (segTest_foldl_spec log_spacing batches (initSegTestState num_classes)
    rfl h).2.2

theorem sum_range_list_swap {β : Type} (s : Finset ℕ) (l : List β)
    (g : ℕ → β → ℕ) :
    (∑ i ∈ s, (l.map (fun b => g i b)).sum)
      = (l.map (fun b => ∑ i ∈ s, g i b)).sum := by
  induction l with
  | nil => simp
  | cons b t ih => simp [Finset.sum_add_distrib, ih]

theorem classSelect_absent (loss : List ℚ) (target : List ℕ) (i : ℕ)
    (h : (target.filter (fun t => t == i)).length = 0) :
    classSelect loss target i = [] := by
  have h1 : ∀ t ∈ target, ¬((t == i) = true) :=
    List.filter_eq_nil_iff.mp (List.length_eq_zero.mp h)
  unfold classSelect
  have h2 : (target.zip loss).filter (fun x => x.1 == i) = [] := by
    apply List.filter_eq_nil_iff.mpr
    intro x hx
    exact h1 x.1 (List.of_mem_zip hx).1
  rw [h2]
  rfl

theorem classSelect_length (loss : List ℚ) (target : List ℕ) (i : ℕ)
    (hlen : target.length = loss.length) :
    (classSelect loss target i).length
      = (target.filter (fun t => t == i)).length := by
  unfold classSelect
  rw [List.length_map]
  exact zip_filter_fst_length (fun t => t == i) target loss hlen

theorem jaccardTerms_zero_union : ∀ (cc cj : List ℕ), cc.length = cj.length →
    (∃ k, k < cj.length ∧ cj.getD k 1 = 0) →
    jaccardTerms cc cj = .error .zeroDivisionError := by
  intro cc
  induction cc with
  | nil =>
    rintro cj hlen ⟨k, hk, -⟩
    rw [← hlen] at hk
    simp at hk
  | cons x xs ih =>
    intro cj hlen hex
    cases cj with
    | nil =>
      obtain ⟨k, hk, -⟩ := hex
      simp at hk
    | cons y ys =>
      by_cases hy : y = 0
      · simp [jaccardTerms, hy]
      · obtain ⟨k, hk, hk0⟩ := hex
        cases k with
        | zero => exact absurd hk0 (by simpa using hy)
        | succ k =>
          have hys : jaccardTerms xs ys = .error .zeroDivisionError :=
            ih ys (by simpa using hlen)
              ⟨k, by simpa using hk, by simpa using hk0⟩
          simp [jaccardTerms, hy, hys]

theorem sigmoid_pos (x : ℝ) : 0 < sigmoid x := by
  unfold sigmoid
  have h := Real.exp_pos (-x)
  positivity

theorem sigmoid_le_sigmoid {x y : ℝ} (h : x ≤ y) : sigmoid x ≤ sigmoid y := by
  unfold sigmoid
  have h1 : Real.exp (-y) ≤ Real.exp (-x) := Real.exp_le_exp.mpr (neg_le_neg h)
  have h2 : 0 < 1 + Real.exp (-y) := by positivity
  apply one_div_le_one_div_of_le h2
  linarith

/-- The renormalization denominator of the prior-correction step is a sum of
sigmoid values and hence strictly positive in exact arithmetic whenever there
is at least one class: a zero denominator can only arise through
floating-point underflow. -/
theorem priorStep_denom_pos (num_classes : ℕ) (hC : 0 < num_classes)
    (prior img : ℕ → ℕ → ℝ) (p : ℕ) :
    0 < ∑ c2 ∈ Finset.range num_classes, sigmoid (img c2 p - prior c2 p) := by
  apply Finset.sum_pos
  · intro c2 _
    exact sigmoid_pos _
  · exact Finset.nonempty_range_iff.mpr (by omega)

theorem buildPrior_half (c p : ℕ) :
    buildPrior 2 1 (fun _ _ => (1 : ℝ) / 2) c p = 1 / 2 := by
  unfold buildPrior
  rw [Finset.sum_range_succ, Finset.sum_range_succ, Finset.sum_range_zero,
    Finset.sum_range_succ, Finset.sum_range_zero, Finset.sum_range_succ,
    Finset.sum_range_zero]
  norm_num

theorem priorCorrect_two_unfold (C : ℕ) (B : ℕ → ℕ → ℝ)
    (out : ℕ → ℕ → ℕ → ℝ) :
    priorCorrect 2 C B out
      = priorIter C B (priorIter C B
          (fun j c p => Real.exp (out j c p)) 0) 1 := by
  unfold priorCorrect
  rw [show List.range 2 = [0, 1] from rfl]
  simp only [List.foldl_cons, List.foldl_nil]

theorem priorIter_at_ne (C : ℕ) (B : ℕ → ℕ → ℝ) (st : ℕ → ℕ → ℕ → ℝ)
    (i j c p : ℕ) (h : j ≠ i) :
    priorIter C B st i j c p = Real.log (st j c p) := by
  unfold priorIter
  rw [Function.update_noteq h]

theorem priorIter_at_eq (C : ℕ) (B : ℕ → ℕ → ℝ) (st : ℕ → ℕ → ℕ → ℝ)
    (i c p : ℕ) :
    priorIter C B st i i c p = Real.log (priorStep C B (st i) c p) := by
  unfold priorIter
  rw [Function.update_same]

theorem predLabel_two (v : ℕ → ℝ) :
    predLabel 2 v = if v 0 < v 1 then 1 else 0 := rfl

theorem sigmoid_lt_sigmoid_iff (x y : ℝ) : sigmoid x < sigmoid y ↔ x < y := by
  constructor
  · intro h
    by_contra h2
    exact absurd h (not_lt.mpr (sigmoid_le_sigmoid (not_lt.mp h2)))
  · intro h
    unfold sigmoid
    have h1 : Real.exp (-y) < Real.exp (-x) := Real.exp_lt_exp.mpr (by linarith)
    have h2 : 0 < 1 + Real.exp (-y) := by positivity
    apply one_div_lt_one_div_of_lt h2
    linarith

theorem argmaxUpTo_congr (v w : ℕ → ℝ)
    (h : ∀ a b, v a < v b ↔ w a < w b) :
    ∀ n, argmaxUpTo v n = argmaxUpTo w n := by
  intro n
  induction n with
  | zero => rfl
  | succ n ih =>
    simp only [argmaxUpTo, ih]
    by_cases h2 : w (argmaxUpTo w n) < w (n + 1)
    · rw [if_pos ((h _ _).mpr h2), if_pos h2]
    · rw [if_neg (fun hc => h2 ((h _ _).mp hc)), if_neg h2]

theorem priorCorrect_one_unfold (C : ℕ) (B : ℕ → ℕ → ℝ)
    (out : ℕ → ℕ → ℕ → ℝ) :
    priorCorrect 1 C B out
      = priorIter C B (fun j c p => Real.exp (out j c p)) 0 := by
  unfold priorCorrect
  rw [show List.range 1 = [0] from rfl]
  simp only [List.foldl_cons, List.foldl_nil]

/-- For a SINGLE-image batch the prior-correction pipeline applied with a
spatially and class-wise uniform distribution preserves the per-pixel argmax
(each per-class value is passed through the same strictly monotone chain of
exponential, constant shift, sigmoid, positive renormalization and
logarithm).  This is the intended behaviour the spec describes; the in-loop
batch-wide logarithm only breaks it for batches of two or more images. -/
theorem prior_uniform_single_image_argmax (num_classes num_pixels : ℕ)
    (hC : 0 < num_classes) (u : ℝ) (out : ℕ → ℕ → ℕ → ℝ) (p : ℕ) :
    predLabel num_classes (fun c =>
        priorCorrect 1 num_classes
          (buildPrior num_classes num_pixels (fun _ _ => u)) out 0 c p)
      = predLabel num_classes (fun c => out 0 c p) := by
  have hv : ∀ c, priorCorrect 1 num_classes
      (buildPrior num_classes num_pixels (fun _ _ => u)) out 0 c p
      = Real.log (priorStep num_classes
          (buildPrior num_classes num_pixels (fun _ _ => u))
          (fun c2 p2 => Real.exp (out 0 c2 p2)) c p) := by
    intro c
    rw [priorCorrect_one_unfold]
    exact priorIter_at_eq num_classes _ _ 0 c p
  have hconst : ∀ c, buildPrior num_classes num_pixels (fun _ _ => u) c p
      = buildPrior num_classes num_pixels (fun _ _ => u) 0 p :=
    fun c => rfl
  have hS : 0 < ∑ c2 ∈ Finset.range num_classes,
      sigmoid (Real.exp (out 0 c2 p)
        - buildPrior num_classes num_pixels (fun _ _ => u) c2 p) :=
    priorStep_denom_pos num_classes hC _
      (fun c2 p2 => Real.exp (out 0 c2 p2)) p
  have hiff : ∀ a b,
      (fun c => priorCorrect 1 num_classes
        (buildPrior num_classes num_pixels (fun _ _ => u)) out 0 c p) a
      < (fun c => priorCorrect 1 num_classes
        (buildPrior num_classes num_pixels (fun _ _ => u)) out 0 c p) b
      ↔ (fun c => out 0 c p) a < (fun c => out 0 c p) b := by
    intro a b
    simp only
    rw [hv a, hv b]
    unfold priorStep
    have hsa : 0 < sigmoid (Real.exp (out 0 a p)
        - buildPrior num_classes num_pixels (fun _ _ => u) a p) :=
      sigmoid_pos _
    have hsb : 0 < sigmoid (Real.exp (out 0 b p)
        - buildPrior num_classes num_pixels (fun _ _ => u) b p) :=
      sigmoid_pos _
    rw [Real.log_lt_log_iff (div_pos hsa hS) (div_pos hsb hS)]
    rw [div_lt_div_iff_of_pos_right hS]
    rw [sigmoid_lt_sigmoid_iff]
    rw [hconst a, hconst b]
    rw [sub_lt_sub_iff_right]
    exact Real.exp_lt_exp
  unfold predLabel
  exact argmaxUpTo_congr _ _ hiff (num_classes - 1)

/-!
Claim theorems.
-/

/-- C2: the prior-correction stage does NOT leave the per-pixel argmax
unchanged for every batch size, even with a perfectly uniform
class-frequency distribution.  Because `output = np.log(output)` sits inside
the per-image loop, a batch of two identical one-pixel images with logits
`(0, 1)` and the uniform distribution `1/2` ends with image 0 transformed by
a second logarithm of its (negative) log-probabilities, which reverses the
class order: the corrected label of image 0 is `0` while the raw argmax is
`1`.  (In exact real arithmetic `Real.log` of a negative number is the log
of its absolute value; in the floating-point original the doubly-logged
values are NaN — either way the predicted label map is not preserved.) -/
theorem prior_correction_batch_relog_changes_argmax :
    predLabel 2 (fun c =>
        priorCorrect 2 2 (buildPrior 2 1 (fun _ _ => (1 : ℝ) / 2))
          (fun _ c2 _ => if c2 = 1 then (1 : ℝ) else 0) 0 c 0) = 0
      ∧ predLabel 2 (fun c => if c = 1 then (1 : ℝ) else 0) = 1 := by
  constructor
  · have hs0 : 0 < sigmoid (Real.exp 0 - 1 / 2) := sigmoid_pos _
    have hs1 : 0 < sigmoid (Real.exp 1 - 1 / 2) := sigmoid_pos _
    have hle : sigmoid (Real.exp 0 - 1 / 2) ≤ sigmoid (Real.exp 1 - 1 / 2) := by
      apply sigmoid_le_sigmoid
      have h1 : Real.exp 0 ≤ Real.exp 1 := Real.exp_le_exp.mpr (by norm_num)
      linarith
    have hS : 0 < sigmoid (Real.exp 0 - 1 / 2) + sigmoid (Real.exp 1 - 1 / 2) := by
      linarith
    have hstep : ∀ c, priorStep 2 (buildPrior 2 1 (fun _ _ => (1 : ℝ) / 2))
        (fun c2 p => Real.exp (if c2 = 1 then (1 : ℝ) else 0)) c 0
        = sigmoid (Real.exp (if c = 1 then (1 : ℝ) else 0) - 1 / 2)
          / (sigmoid (Real.exp 0 - 1 / 2) + sigmoid (Real.exp 1 - 1 / 2)) := by
      intro c
      unfold priorStep
      rw [Finset.sum_range_succ, Finset.sum_range_succ, Finset.sum_range_zero,
        buildPrior_half 0 0, buildPrior_half 1 0, buildPrior_half c 0]
      norm_num
    have hv0 : priorCorrect 2 2 (buildPrior 2 1 (fun _ _ => (1 : ℝ) / 2))
        (fun _ c2 _ => if c2 = 1 then (1 : ℝ) else 0) 0 0 0
        = Real.log (Real.log (sigmoid (Real.exp 0 - 1 / 2)
            / (sigmoid (Real.exp 0 - 1 / 2) + sigmoid (Real.exp 1 - 1 / 2)))) := by
      rw [priorCorrect_two_unfold]
      rw [priorIter_at_ne 2 _ _ 1 0 0 0 (by norm_num)]
      rw [priorIter_at_eq 2 _ _ 0 0 0]
      rw [hstep 0]
      norm_num
    have hv1 : priorCorrect 2 2 (buildPrior 2 1 (fun _ _ => (1 : ℝ) / 2))
        (fun _ c2 _ => if c2 = 1 then (1 : ℝ) else 0) 0 1 0
        = Real.log (Real.log (sigmoid (Real.exp 1 - 1 / 2)
            / (sigmoid (Real.exp 0 - 1 / 2) + sigmoid (Real.exp 1 - 1 / 2)))) := by
      rw [priorCorrect_two_unfold]
      rw [priorIter_at_ne 2 _ _ 1 0 1 0 (by norm_num)]
      rw [priorIter_at_eq 2 _ _ 0 1 0]
      rw [hstep 1]
      norm_num
    have hq0pos : 0 < sigmoid (Real.exp 0 - 1 / 2)
        / (sigmoid (Real.exp 0 - 1 / 2) + sigmoid (Real.exp 1 - 1 / 2)) :=
      div_pos hs0 hS
    have hq1pos : 0 < sigmoid (Real.exp 1 - 1 / 2)
        / (sigmoid (Real.exp 0 - 1 / 2) + sigmoid (Real.exp 1 - 1 / 2)) :=
      div_pos hs1 hS
    have hqle : sigmoid (Real.exp 0 - 1 / 2)
          / (sigmoid (Real.exp 0 - 1 / 2) + sigmoid (Real.exp 1 - 1 / 2))
        ≤ sigmoid (Real.exp 1 - 1 / 2)
          / (sigmoid (Real.exp 0 - 1 / 2) + sigmoid (Real.exp 1 - 1 / 2)) := by
      gcongr
    have hq0lt1 : sigmoid (Real.exp 0 - 1 / 2)
        / (sigmoid (Real.exp 0 - 1 / 2) + sigmoid (Real.exp 1 - 1 / 2)) < 1 := by
      rw [div_lt_one hS]; linarith
    have hq1lt1 : sigmoid (Real.exp 1 - 1 / 2)
        / (sigmoid (Real.exp 0 - 1 / 2) + sigmoid (Real.exp 1 - 1 / 2)) < 1 := by
      rw [div_lt_one hS]; linarith
    have hu0neg := Real.log_neg hq0pos hq0lt1
    have hu1neg := Real.log_neg hq1pos hq1lt1
    have hule : Real.log (sigmoid (Real.exp 0 - 1 / 2)
          / (sigmoid (Real.exp 0 - 1 / 2) + sigmoid (Real.exp 1 - 1 / 2)))
        ≤ Real.log (sigmoid (Real.exp 1 - 1 / 2)
          / (sigmoid (Real.exp 0 - 1 / 2) + sigmoid (Real.exp 1 - 1 / 2))) := by
      gcongr
    have hfinal : Real.log (Real.log (sigmoid (Real.exp 1 - 1 / 2)
          / (sigmoid (Real.exp 0 - 1 / 2) + sigmoid (Real.exp 1 - 1 / 2))))
        ≤ Real.log (Real.log (sigmoid (Real.exp 0 - 1 / 2)
          / (sigmoid (Real.exp 0 - 1 / 2) + sigmoid (Real.exp 1 - 1 / 2)))) := by
      have e0 := Real.log_neg_eq_log (-Real.log (sigmoid (Real.exp 0 - 1 / 2)
          / (sigmoid (Real.exp 0 - 1 / 2) + sigmoid (Real.exp 1 - 1 / 2))))
      have e1 := Real.log_neg_eq_log (-Real.log (sigmoid (Real.exp 1 - 1 / 2)
          / (sigmoid (Real.exp 0 - 1 / 2) + sigmoid (Real.exp 1 - 1 / 2))))
      rw [neg_neg] at e0 e1
      rw [e0, e1]
      gcongr
      linarith
    rw [predLabel_two]
    have hne : ¬ ((fun c =>
        priorCorrect 2 2 (buildPrior 2 1 (fun _ _ => (1 : ℝ) / 2))
          (fun _ c2 _ => if c2 = 1 then (1 : ℝ) else 0) 0 c 0) 0
        < (fun c =>
        priorCorrect 2 2 (buildPrior 2 1 (fun _ _ => (1 : ℝ) / 2))
          (fun _ c2 _ => if c2 = 1 then (1 : ℝ) else 0) 0 c 0) 1) := by
      show ¬ (priorCorrect 2 2 (buildPrior 2 1 (fun _ _ => (1 : ℝ) / 2))
          (fun _ c2 _ => if c2 = 1 then (1 : ℝ) else 0) 0 0 0
        < priorCorrect 2 2 (buildPrior 2 1 (fun _ _ => (1 : ℝ) / 2))
          (fun _ c2 _ => if c2 = 1 then (1 : ℝ) else 0) 0 1 0)
      rw [hv0, hv1]
      exact not_lt.mpr hfinal
    rw [if_neg hne]
  · rw [predLabel_two]
    norm_num

/-- C1: evaluation of the confusion accumulator on the spec's scenario
(`num_classes = 2`, target `[[0,1],[1,1]]`, prediction `[[0,0],[1,1]]`,
flattened row-major).  The code increments the cell indexed by
(target class, predicted class), contradicting its own docstring and the
claim, which say (predicted class, target class): the resulting matrix is
`[[1,0],[1,2]]`, the transpose of the claimed `[[1,1],[0,2]]`.  The overall
correct-pixel count is 3 of the 4 pixels, so the accuracy part of the claim
does hold. -/
theorem confusion_matrix_indexing_eval :
    get_per_class_accuracy [0, 0, 1, 1] [0, 1, 1, 1] (zeroMatrix 2)
        = [[1, 0], [1, 2]]
      ∧ ([[1, 0], [1, 2]] : List (List ℕ)) ≠ [[1, 1], [0, 2]]
      ∧ correctPixels [0, 0, 1, 1] [0, 1, 1, 1] 0
          + correctPixels [0, 0, 1, 1] [0, 1, 1, 1] 1 = 3
      ∧ ([0, 0, 1, 1] : List ℕ).length = 4 := by
  decide

/-- C3 counterexample: a one-batch run of `SegmentationTrainer.test` that
completes cleanly (prediction `[0,1]`, target `[0,1]`: both union counts are
1, so the in-loop `print_log` succeeds and, with `log_spacing = 1`, the
periodic report does fire) emits no final aggregate report at all — its
trace is exactly the single in-loop block, refuting the claim that a final
aggregate report is emitted after all batches. -/
theorem seg_test_no_final_report_eval :
    (segmentation_test 2 1 100 [⟨[0, 1], [0, 1], 0⟩]).trace
        = [.snapshot 1, .report 1 true, .save 1]
      ∧ (segmentation_test 2 1 100 [⟨[0, 1], [0, 1], 0⟩]).aborted = none
      ∧ ((segmentation_test 2 1 100 [⟨[0, 1], [0, 1], 0⟩]).trace.filter
          TestEvent.isFinal) = [] := by
  decide

/-- C3 amended: `SegmentationTrainer.test` never emits a post-loop aggregate
report (there is no code after its batch loop, and an aborted run emits even
less), while the older 2-class `test` of `fcn_2class.py` always ends with
one final aggregate report over the whole dataset — which carries loss and
accuracy but no Jaccard value (its `print_log` computes none, and its
per-class breakdown guards `total == 0`, so it has no analogous
division-by-zero abort on its own counters). -/
theorem final_report_amended :
    (∀ num_classes log_spacing iters_per_log (batches : List EvalBatch),
        ((segmentation_test num_classes log_spacing iters_per_log
            batches).trace.filter TestEvent.isFinal) = [])
    ∧ (∀ iters_per_log (batches : List EvalBatch),
        (fcn2_test iters_per_log batches).trace.getLast?
          = some (.finalReport false)) := by
  constructor
  · intro nc ls ipl bs
    unfold segmentation_test
    rw [segTest_trace_no_final]
    rfl
  · intro ipl bs
    exact fcn2_trace_last ipl bs

/-- C4 counterexample: at a logging window where class 1 has union count 0,
the Jaccard computation of `print_log` stops with Python's built-in
`ZeroDivisionError`, which is not the `MetricComputationError` named by the
claim (no such class exists in the repository). -/
theorem jaccard_error_class_eval :
    jaccard_accuracy [0, 0] [3, 0] = .error .zeroDivisionError
      ∧ (Except.error PyError.zeroDivisionError : Except PyError ℚ)
          ≠ .error .metricComputationError := by
  refine ⟨rfl, fun h => absurd (Except.error.inj h) (by decide)⟩

/-- C4 amended: whenever some class has a zero union count over the window,
the Jaccard computation of `print_log` surfaces the division by zero as an
uncaught `ZeroDivisionError` — it neither masks it nor produces a metric
value. -/
theorem jaccard_zero_union_raises_zerodivision
    (class_correct_pixels class_jacard_or : List ℕ)
    (hlen : class_correct_pixels.length = class_jacard_or.length)
    (hex : ∃ k, k < class_jacard_or.length ∧ class_jacard_or.getD k 1 = 0) :
    jaccard_accuracy class_correct_pixels class_jacard_or
      = .error .zeroDivisionError := by
  unfold jaccard_accuracy
  rw [jaccardTerms_zero_union class_correct_pixels class_jacard_or hlen hex]

/-- C4 witness: the amended theorem applied at correct counts `[0,0]` and
union counts `[3,0]`. -/
theorem jaccard_zero_union_witness :
    ([0, 0] : List ℕ).length = ([3, 0] : List ℕ).length
      ∧ (1 < ([3, 0] : List ℕ).length ∧ ([3, 0] : List ℕ).getD 1 1 = 0)
      ∧ jaccard_accuracy [0, 0] [3, 0] = .error .zeroDivisionError :=
  ⟨by decide, ⟨by decide, by decide⟩,
    jaccard_zero_union_raises_zerodivision [0, 0] [3, 0] (by decide)
      ⟨1, by decide, by decide⟩⟩

/-- C6: for every class `i` below `num_classes`, if no target pixel has
class `i` then `get_per_class_loss` writes `0` (the sum over the empty
selection, with no division performed at all), and if some target pixel has
class `i` it writes the mean of the element-wise loss over exactly the
pixels whose target is `i`. -/
theorem per_class_loss_absent_zero_present_mean (loss : List ℚ)
    (target : List ℕ) (num_classes i : ℕ) (hi : i < num_classes)
    (hlen : target.length = loss.length) :
    ((target.filter (fun t => t == i)).length = 0 →
      (get_per_class_loss loss target num_classes).getD i 0 = 0)
    ∧ (0 < (target.filter (fun t => t == i)).length →
      (get_per_class_loss loss target num_classes).getD i 0
        = (classSelect loss target i).sum
          / ((classSelect loss target i).length : ℚ)) := by
  have hget : (get_per_class_loss loss target num_classes).getD i 0
      = (if 0 < (target.filter (fun t => t == i)).length then
          (classSelect loss target i).sum
            / (((target.filter (fun t => t == i)).length : ℕ) : ℚ)
        else (classSelect loss target i).sum) := by
    unfold get_per_class_loss
    exact getD_map_range num_classes _ i 0 hi
  constructor
  · intro h0
    rw [hget, h0, if_neg (by omega), classSelect_absent loss target i h0]
    rfl
  · intro hpos
    rw [hget, if_pos hpos, classSelect_length loss target i hlen]

/-- C6 witness: the theorem applied at `loss = [1, 3]`, `target = [0, 0]`,
`num_classes = 2`: class 1 is absent so its entry is `0`, and class 0 gets
the mean `(1 + 3) / 2 = 2`. -/
theorem per_class_loss_witness :
    (1 < 2 ∧ ([0, 0] : List ℕ).length = ([1, 3] : List ℚ).length)
      ∧ (get_per_class_loss [1, 3] [0, 0] 2).getD 1 0 = 0
      ∧ (get_per_class_loss [1, 3] [0, 0] 2).getD 0 0 = 2 :=
  ⟨⟨by decide, by decide⟩,
    (per_class_loss_absent_zero_present_mean [1, 3] [0, 0] 2 1 (by decide)
      (by decide)).1 (by decide),
    by
      have h := (per_class_loss_absent_zero_present_mean [1, 3] [0, 0] 2 0
        (by decide) (by decide)).2 (by decide)
      rw [h]
      norm_num [classSelect]⟩

/-- C7: `SegmentationTrainer.train` with resume offset `start_index`
performs exactly the processing of batches `start_index, …, n-1`: the whole
final state — accumulated confusion matrix, per-class counts, statistics
appends and the full trace of forward/step/log/checkpoint events — equals
that of folding the per-batch step over the enumerated batch list with its
first `start_index` entries dropped, from the same entry state.  Skipped
batches therefore contribute no side effect and no accumulator delta. -/
theorem train_start_index_processes_tail
    (num_classes log_spacing save_spacing : ℕ) (st : TrainState)
    (batches : List TrainBatch) (start_index : ℕ) :
    train num_classes log_spacing save_spacing st batches start_index
      = (batches.enum.drop start_index).foldl
          (trainStep num_classes log_spacing save_spacing) st := by
  show trainLoop num_classes log_spacing save_spacing start_index st
      (List.enumFrom 0 batches) = _
  rw [trainLoop_enumFrom num_classes log_spacing save_spacing start_index
    batches 0 st]
  rfl

/-- C8 counterexample: on the spec's own scenario, the sum over row 0 of the
accumulated confusion matrix is 1, while 2 pixels are predicted as class 0 —
rows of the accumulator are indexed by target class, not by predicted class
as the claim states. -/
theorem confusion_row_sum_counterexample :
    ¬ ((∑ i ∈ Finset.range 2,
        matEntry (get_per_class_accuracy [0, 0, 1, 1] [0, 1, 1, 1]
          (zeroMatrix 2)) 0 i)
      = (([0, 0, 1, 1] : List ℕ).filter (fun x => x == 0)).length) := by
  decide

/-- C8 amended: the confusion accumulator applied to any sequence of
batches whose labels all lie below `num_classes` yields a matrix whose full
sum is the total number of pixels accumulated, whose COLUMN `i` sums to the
number of pixels predicted as class `i`, and whose ROW `j` sums to the
number of pixels whose target is class `j` (the claim had rows and columns
swapped: with this accumulator, predicted-class counts are column sums).
The loops apply the accumulator once per processed batch, so these
invariants hold of whatever prefix a run actually accumulates; a completed
evaluation run's matrix is exactly `confusionFold` over all its batches
(theorem `segTest_confusion_of_completed`). -/
theorem confusion_sums_amended (num_classes : ℕ)
    (batches : List EvalBatch)
    (hlen : ∀ b ∈ batches, b.pred.length = b.target.length)
    (hp : ∀ b ∈ batches, ∀ x ∈ b.pred, x < num_classes)
    (ht : ∀ b ∈ batches, ∀ x ∈ b.target, x < num_classes) :
    (∑ j ∈ Finset.range num_classes, ∑ i ∈ Finset.range num_classes,
        matEntry (confusionFold num_classes batches) j i)
      = (batches.map (fun b => b.pred.length)).sum
    ∧ (∀ i, i < num_classes → (∑ j ∈ Finset.range num_classes,
        matEntry (confusionFold num_classes batches) j i)
      = (batches.map (fun b =>
          (b.pred.filter (fun x => x == i)).length)).sum)
    ∧ (∀ j, j < num_classes → (∑ i ∈ Finset.range num_classes,
        matEntry (confusionFold num_classes batches) j i)
      = (batches.map (fun b =>
          (b.target.filter (fun x => x == j)).length)).sum) := by
  have hzl : (zeroMatrix num_classes).length = num_classes := by
    simp [zeroMatrix]
  have hzr : ∀ j, j < num_classes →
      ((zeroMatrix num_classes).getD j []).length = num_classes := by
    intro j hj
    unfold zeroMatrix
    rw [getD_map_range num_classes _ j [] hj]
    simp
  have hent : ∀ j i, j < num_classes → i < num_classes →
      matEntry (confusionFold num_classes batches) j i
        = (batches.map (fun b =>
            prediction_error b.pred b.target i j)).sum := by
    intro j i hj hi
    unfold confusionFold
    rw [confusion_fold_entry num_classes batches
      (zeroMatrix num_classes) hzl hzr j i hj hi,
      matEntry_zero num_classes j i hj hi, Nat.zero_add]
  have hrow : ∀ j, j < num_classes →
      (∑ i ∈ Finset.range num_classes,
          matEntry (confusionFold num_classes batches) j i)
        = (batches.map (fun b =>
            (b.target.filter (fun x => x == j)).length)).sum := by
    intro j hj
    rw [Finset.sum_congr rfl
      (fun i hi => hent j i hj (Finset.mem_range.mp hi))]
    rw [sum_range_list_swap (Finset.range num_classes) batches
      (fun i b => prediction_error b.pred b.target i j)]
    congr 1
    apply List.map_congr_left
    intro b hb
    exact pe_row_sum b.pred b.target num_classes j (hlen b hb) (hp b hb)
  have hcol : ∀ i, i < num_classes →
      (∑ j ∈ Finset.range num_classes,
          matEntry (confusionFold num_classes batches) j i)
        = (batches.map (fun b =>
            (b.pred.filter (fun x => x == i)).length)).sum := by
    intro i hi
    rw [Finset.sum_congr rfl
      (fun j hj => hent j i (Finset.mem_range.mp hj) hi)]
    rw [sum_range_list_swap (Finset.range num_classes) batches
      (fun j b => prediction_error b.pred b.target i j)]
    congr 1
    apply List.map_congr_left
    intro b hb
    exact pe_col_sum b.pred b.target num_classes i (hlen b hb) (ht b hb)
  refine ⟨?_, hcol, hrow⟩
  rw [Finset.sum_congr rfl (fun j hj => hrow j (Finset.mem_range.mp hj))]
  rw [sum_range_list_swap (Finset.range num_classes) batches
    (fun j b => (b.target.filter (fun x => x == j)).length)]
  congr 1
  apply List.map_congr_left
  intro b hb
  rw [filter_key_length_sum (fun x : ℕ => x) num_classes b.target (ht b hb)]
  exact (hlen b hb).symm

/-- C8 witness: the amended theorem applied to the one-batch spec scenario;
column 0 of the accumulated confusion matrix sums to the 2 pixels predicted
as class 0. -/
theorem confusion_sums_witness :
    ((∀ b ∈ [EvalBatch.mk [0, 0, 1, 1] [0, 1, 1, 1] 0],
        b.pred.length = b.target.length)
      ∧ (∀ b ∈ [EvalBatch.mk [0, 0, 1, 1] [0, 1, 1, 1] 0],
          ∀ x ∈ b.pred, x < 2)
      ∧ (∀ b ∈ [EvalBatch.mk [0, 0, 1, 1] [0, 1, 1, 1] 0],
          ∀ x ∈ b.target, x < 2))
      ∧ (∑ j ∈ Finset.range 2,
          matEntry (confusionFold 2
            [EvalBatch.mk [0, 0, 1, 1] [0, 1, 1, 1] 0]) j 0)
        = ([EvalBatch.mk [0, 0, 1, 1] [0, 1, 1, 1] 0].map (fun b =>
            (b.pred.filter (fun x => x == 0)).length)).sum :=
  ⟨⟨by decide, by decide, by decide⟩,
    (confusion_sums_amended 2
      [EvalBatch.mk [0, 0, 1, 1] [0, 1, 1, 1] 0] (by decide) (by decide)
      (by decide)).2.1 0 (by decide)⟩

/-- C9: a training-side `print_log` invocation (`test = False`) appends the
loss and accuracy snapshots to `model.train_stats`, appends the Jaccard
snapshot to `model.test_stats`, and leaves
`model.train_stats.jaccard_accuracy` unchanged. -/
theorem train_log_routes_jaccard_to_test_stats (m : ModelStats)
    (loss accuracy jaccard : ℚ) :
    (print_log_stats false loss accuracy jaccard m).train_stats.loss
        = m.train_stats.loss ++ [loss]
      ∧ (print_log_stats false loss accuracy jaccard m).train_stats.accuracy
        = m.train_stats.accuracy ++ [accuracy]
      ∧ (print_log_stats false loss accuracy jaccard
          m).test_stats.jaccard_accuracy
        = m.test_stats.jaccard_accuracy ++ [jaccard]
      ∧ (print_log_stats false loss accuracy jaccard
          m).train_stats.jaccard_accuracy
        = m.train_stats.jaccard_accuracy :=
  ⟨rfl, rfl, rfl, rfl⟩

/-- C10 counterexample: on a one-batch run where the first log window has a
zero-union class (prediction `[0]`, target `[0]`, `num_classes = 2`,
`log_spacing = 1`), `batches_done = 1` is a positive multiple of
`log_spacing`, and the per-class-accuracy snapshot fires, but `print_log`
aborts the run with the Jaccard `ZeroDivisionError` before the report and
before `model.save()` — so the report and the checkpoint do NOT occur at
that positive multiple, refuting the claim's unconditional "occur exactly
when" characterization. -/
theorem log_point_crash_counterexample :
    (segmentation_test 2 1 100 [⟨[0], [0], 0⟩]).trace = [.snapshot 1]
      ∧ (segmentation_test 2 1 100 [⟨[0], [0], 0⟩]).aborted
          = some .zeroDivisionError
      ∧ 1 % 1 = 0
      ∧ TestEvent.report 1 true ∉ (segmentation_test 2 1 100
          [⟨[0], [0], 0⟩]).trace
      ∧ TestEvent.save 1 ∉ (segmentation_test 2 1 100
          [⟨[0], [0], 0⟩]).trace := by
  decide

/-- C10 amended: the `iters_per_log` argument of `SegmentationTrainer.test`
has no effect — two runs differing only in it are equal in every component,
logs, statistics, checkpoints and abort state included.  Snapshot, report
and checkpoint events can only carry a `batches_done` value that is a
positive multiple of the constructor's `log_spacing`; and on every run that
does not abort on the Jaccard division (`aborted = none`), the trace is
exactly one snapshot/report/save block at each such positive multiple (the
values characterised by the membership equivalence).  On a run whose log
window contains a zero-union class, the report and checkpoint of the
crashing log point (and everything later) are missing, as the
counterexample shows. -/
theorem test_iters_per_log_unused (num_classes log_spacing iters_per_log
    iters_per_log2 : ℕ) (batches : List EvalBatch) :
    segmentation_test num_classes log_spacing iters_per_log batches
        = segmentation_test num_classes log_spacing iters_per_log2 batches
      ∧ ((segmentation_test num_classes log_spacing iters_per_log
            batches).aborted = none →
          (segmentation_test num_classes log_spacing iters_per_log
            batches).trace
          = ((segLogPointsFrom log_spacing 0 batches.length).map
              segLogBlock).flatten)
      ∧ (∀ k, k ∈ segLogPointsFrom log_spacing 0 batches.length
          ↔ 0 < k ∧ k ≤ batches.length ∧ k % log_spacing = 0)
      ∧ (∀ e ∈ (segmentation_test num_classes log_spacing iters_per_log
            batches).trace, eventAtLogPoint log_spacing e) := by
  refine ⟨rfl, ?_, ?_, ?_⟩
  · intro h
    unfold segmentation_test at h ⊢
    have h2 := (segTest_foldl_spec log_spacing batches
      (initSegTestState num_classes) rfl h).2.1
    simpa [initSegTestState] using h2
  · intro k
    rw [segLogPointsFrom_mem log_spacing batches.length 0 k]
    simp
  · unfold segmentation_test
    exact segTest_trace_events log_spacing batches
      (initSegTestState num_classes)
      (by intro e he; exact absurd he (List.not_mem_nil e))

/-- C10 witness: the amended theorem applied to a crash-free one-batch run
(prediction `[0,1]`, target `[0,1]`, `log_spacing = 1`): the run does not
abort, its trace is the single full log block, and the report event it
contains sits at a positive multiple of `log_spacing`. -/
theorem test_iters_per_log_witness :
    (segmentation_test 2 1 100 [⟨[0, 1], [0, 1], 0⟩]).aborted = none
      ∧ (segmentation_test 2 1 100 [⟨[0, 1], [0, 1], 0⟩]).trace
        = ((segLogPointsFrom 1 0 ([EvalBatch.mk [0, 1] [0, 1] 0]).length).map
            segLogBlock).flatten
      ∧ eventAtLogPoint 1 (.report 1 true) :=
  ⟨by decide,
    (test_iters_per_log_unused 2 1 100 100
      [EvalBatch.mk [0, 1] [0, 1] 0]).2.1 (by decide),
    (test_iters_per_log_unused 2 1 100 100
      [EvalBatch.mk [0, 1] [0, 1] 0]).2.2.2 (.report 1 true) (by decide)⟩
